import Mathlib

/-!
# Edge detection bridge: `processEdges` and `detectEdges`

A shallow embedding of the two functions of the repository,

* `detectEdges` (`opencv-processor.cpp`): NV21 frame to RGBA edge image, and
* `Java_com_edgedetector_jni_NativeProcessor_processEdges` (`native-lib.cpp`):
  the JNI entry point that validates the call and copies the result back,

followed by the properties proved about them.

The OpenCV routines `cvtColor`, `GaussianBlur` and `Canny` are third-party code.
They are a parameter of the embedding (`Cv`): every theorem below holds for any
library, and concrete runs use the small library `sampleCv`.
-/

set_option autoImplicit false

namespace EdgeDetector

/-! ## Data model -/

/-- One `uint8_t` / `jbyte` of storage. -/
abbrev Byte := Fin 256

/-- What the `try` blocks can catch: `cv::Exception` and `std::bad_alloc`, both
derived from `std::exception`. -/
inductive Fault where
  | cvError
  | badAlloc
deriving DecidableEq, Repr

/-- Header of a single-channel 8-bit matrix (`cv::Mat`, `CV_8UC1`): its `int`
dimensions and the bytes its data pointer addresses, row after row. A header
built over caller memory does not copy and does not know how long that memory
is, so `data` may be shorter or longer than `rows * cols`. -/
structure Mat where
  rows : Int
  cols : Int
  data : List Byte
deriving DecidableEq, Repr

/-- Number of elements of the matrix, `cv::Mat::total()`. -/
def Mat.total (m : Mat) : Int := m.rows * m.cols

/-- Element access `m.at<uint8_t>(y, x)`: the byte at offset `y * cols + x`.
OpenCV does not check the index in release builds; an offset outside `data`
reads 0 here. -/
def Mat.elemAt (m : Mat) (y x : Nat) : Byte :=
  m.data.getD (y * m.cols.toNat + x) 0

/-- A four-channel pixel, `cv::Vec4b`. -/
structure Vec4b where
  v0 : Byte
  v1 : Byte
  v2 : Byte
  v3 : Byte
deriving DecidableEq, Repr

/-- The four bytes of a pixel in memory order. -/
def Vec4b.bytes (v : Vec4b) : List Byte := [v.v0, v.v1, v.v2, v.v3]

/-- A four-channel 8-bit matrix (`cv::Mat`, `CV_8UC4`) that owns its pixels. -/
structure Mat4 where
  rows : Int
  cols : Int
  data : List Vec4b
deriving DecidableEq, Repr

/-- Value of `cv::Mat::total()` for a four-channel matrix, as a `size_t`. -/
def Mat4.total (m : Mat4) : Nat := (m.rows * m.cols).toNat

/-- Value of `cv::Mat::channels()` for `CV_8UC4`. -/
def Mat4.channels (_m : Mat4) : Nat := 4

/-- The memory behind `output.data`, byte by byte. -/
def Mat4.bytes (m : Mat4) : List Byte := m.data.flatMap Vec4b.bytes

/-- Assignment `m.at<cv::Vec4b>(y, x) = v`. -/
def Mat4.set (m : Mat4) (y x : Nat) (v : Vec4b) : Mat4 :=
  { m with data := m.data.set (y * m.cols.toNat + x) v }

/-- Colour conversion codes used by the source. -/
inductive ColorConversionCode where
  | COLOR_YUV2GRAY_NV21
deriving DecidableEq, Repr

/-- The external image-processing capability together with the allocator.
Each routine either returns its destination matrix or raises a fault;
`allocate n` says whether a request for `n` bytes succeeds. -/
structure Cv where
  cvtColor : Mat → ColorConversionCode → Except Fault Mat
  GaussianBlur : Mat → Nat × Nat → ℚ → Except Fault Mat
  Canny : Mat → ℚ → ℚ → Except Fault Mat
  allocate : Nat → Bool

/-! ## `detectEdges` -/

/-- Result of an arithmetic operation on 32-bit `int`: the exact value reduced modulo
`2^32` into the range from `-2^31` to `2^31 - 1`. Signed overflow is undefined in C++; the
two's complement result is what the Android targets compute. -/
def wrapInt32 (z : Int) : Int :=
  (z + 2147483648) % 4294967296 - 2147483648

/-- The header `cv::Mat input(height + height / 2, width, CV_8UC1, imageData)`.
The row count is computed in `int`: `/` truncates toward zero and the sum wraps. -/
def inputMat (imageData : List Byte) (width height : Int) : Mat :=
  { rows := wrapInt32 (height + height.tdiv 2), cols := width, data := imageData }

/-- Steps 1 to 3 of the pipeline: grayscale, blur, Canny. The result is the
matrix `edges` of the source. -/
def edgeMap (cv : Cv) (imageData : List Byte) (width height : Int) : Except Fault Mat := do
  let input := inputMat imageData width height
  let gray ← cv.cvtColor input ColorConversionCode.COLOR_YUV2GRAY_NV21
  let blurred ← cv.GaussianBlur gray (5, 5) (3 / 2)
  cv.Canny blurred 50 150

/-- The constructor `cv::Mat output(height, width, CV_8UC4)`: OpenCV rejects a
negative size, then allocates `rows * cols * 4` bytes whose content is not
specified (zero here; the loops of `detectEdges` overwrite every pixel). -/
def Mat4.create (cv : Cv) (rows cols : Int) : Except Fault Mat4 :=
  if rows < 0 ∨ cols < 0 then Except.error Fault.cvError
  else if cv.allocate ((rows * cols).toNat * 4) then
    Except.ok { rows := rows, cols := cols, data := List.replicate (rows * cols).toNat ⟨0, 0, 0, 0⟩ }
  else Except.error Fault.badAlloc

/-- The inner loop `for (int x = 0; x < width; ++x)` at row `y`. -/
def fillRow (edges : Mat) (width : Int) (y : Nat) (output : Mat4) : Mat4 :=
  (List.range width.toNat).foldl
    (fun out x =>
      let edgeValue := edges.elemAt y x
      out.set y x ⟨edgeValue, edgeValue, edgeValue, 255⟩)
    output

/-- The outer loop `for (int y = 0; y < height; ++y)`. -/
def fillOutput (edges : Mat) (width height : Int) (output : Mat4) : Mat4 :=
  (List.range height.toNat).foldl (fun out y => fillRow edges width y out) output

/-- Copy `std::memcpy(dest, src, n)` on byte sequences. -/
def memcpy (dest src : List Byte) (n : Nat) : List Byte :=
  src.take n ++ dest.drop n

/-- The lines `std::vector<uint8_t> result(total * channels)` and `memcpy`:
a zero-filled vector of that size, then overwritten from `output.data`. -/
def serialize (cv : Cv) (output : Mat4) : Except Fault (List Byte) :=
  let size := output.total * output.channels
  if cv.allocate size then
    let result : List Byte := List.replicate size 0
    Except.ok (memcpy result output.bytes result.length)
  else Except.error Fault.badAlloc

/-- Body of the `try` block of `detectEdges`. -/
def detectEdgesTry (cv : Cv) (imageData : List Byte) (width height : Int) :
    Except Fault (List Byte) := do
  let edges ← edgeMap cv imageData width height
  let output ← Mat4.create cv height width
  let output := fillOutput edges width height output
  serialize cv output

/-- The function `detectEdges`: the result of the `try` block, or the empty vector when
a fault was caught. -/
def detectEdges (cv : Cv) (imageData : List Byte) (width height : Int) : List Byte :=
  match detectEdgesTry cv imageData width height with
  | Except.ok result => result
  | Except.error _ => []

/-! ## `processEdges` -/

/-- A Java `byte[]` as the JNI call sees it: its content, and whether
`GetByteArrayElements` hands out a non-null pointer to it. -/
structure JByteArray where
  bytes : List Byte
  elementsAvailable : Bool
deriving DecidableEq, Repr

/-- The call `env->GetByteArrayElements(imageData, nullptr)`; `none` is a null pointer. -/
def GetByteArrayElements (a : JByteArray) : Option (List Byte) :=
  if a.elementsAvailable then some a.bytes else none

/-- The call `env->GetArrayLength(imageData)`. -/
def GetArrayLength (a : JByteArray) : Int := a.bytes.length

/-- Conversion of a `size_t` to `jsize` (signed 32 bits): the value modulo `2^32`, read
as two's complement. -/
def toJsize (n : Nat) : Int :=
  if n % 2 ^ 32 < 2 ^ 31 then ((n % 2 ^ 32 : Nat) : Int) else ((n % 2 ^ 32 : Nat) : Int) - 2 ^ 32

/-- The call `env->NewByteArray(len)`: a fresh zero-filled array, or no array when the
length is negative. The JNI call also yields no array when the Java heap is exhausted; the
model has no heap and lets every request of a non-negative length succeed. -/
def NewByteArray (len : Int) : Option (List Byte) :=
  if len < 0 then none else some (List.replicate len.toNat 0)

/-- The call `env->SetByteArrayRegion(array, start, len, buf)`: `len` bytes of `buf`
are stored from index `start` on. -/
def SetByteArrayRegion (array : List Byte) (start len : Int) (buf : List Byte) : List Byte :=
  array.take start.toNat ++ buf.take len.toNat ++ array.drop (start.toNat + len.toNat)

/-- What the Java caller gets back. -/
inductive JOutput where
  | null
  | array (bytes : List Byte)
  | jniError
deriving DecidableEq, Repr

/-- The calls `processEdges` makes, in order. -/
inductive Event where
  | getByteArrayElements
  | getArrayLength (dataSize : Int)
  | logE (message : String)
  | releaseByteArrayElements
  | detectEdges
  | newByteArray (len : Int)
  | setByteArrayRegion (start len : Int)
deriving DecidableEq, Repr

/-- One run of `processEdges`: the value returned and the calls made. -/
structure Run where
  output : JOutput
  events : List Event
deriving DecidableEq, Repr

/-- The entry point `Java_com_edgedetector_jni_NativeProcessor_processEdges`.
The `catch` block of the source is not reachable: `detectEdges` catches its own
faults and the JNI calls raise no C++ exception. When `NewByteArray` yields no
array (negative length) the calls that follow are outside the JNI contract and
the run ends in `JOutput.jniError`. -/
def processEdges (cv : Cv) (imageData : JByteArray) (width height : Int) : Run :=
  let data := GetByteArrayElements imageData
  let dataSize := GetArrayLength imageData
  let opened := [Event.getByteArrayElements, Event.getArrayLength dataSize]
  if data = none ∨ width ≤ 0 ∨ height ≤ 0 then
    { output := JOutput.null,
      events := opened ++ [Event.logE "Invalid parameters", Event.releaseByteArrayElements] }
  else
    let processedData := detectEdges cv (data.getD []) width height
    let len := toJsize processedData.length
    match NewByteArray len with
    | none =>
      { output := JOutput.jniError,
        events := opened ++ [Event.detectEdges, Event.newByteArray len] }
    | some result =>
      let result := SetByteArrayRegion result 0 len processedData
      { output := JOutput.array result,
        events := opened ++ [Event.detectEdges, Event.newByteArray len,
          Event.setByteArrayRegion 0 len, Event.releaseByteArrayElements] }

/-! ## A small library for concrete runs -/

/-- Grayscale from NV21 as OpenCV does it: the width must be even and the row count a
multiple of 3, else the call raises; the result is the luma plane, the first
two thirds of the rows. -/
def sampleCvtColor (src : Mat) (_code : ColorConversionCode) : Except Fault Mat :=
  if src.cols % 2 = 0 ∧ src.rows % 3 = 0 then
    let rows := (src.rows * 2).tdiv 3
    Except.ok { rows := rows, cols := src.cols, data := src.data.take (rows * src.cols).toNat }
  else Except.error Fault.cvError

/-- A stand-in for the blur: the image is returned as it is. -/
def sampleGaussianBlur (src : Mat) (_ksize : Nat × Nat) (_sigmaX : ℚ) : Except Fault Mat :=
  Except.ok src

/-- A stand-in for Canny: a pixel is an edge (255) when its value is at least 150, and
0 otherwise. -/
def sampleCanny (image : Mat) (_threshold1 _threshold2 : ℚ) : Except Fault Mat :=
  Except.ok { image with data := image.data.map fun b => if 150 ≤ b.val then 255 else 0 }

/-- The library of the concrete runs; every allocation succeeds. -/
def sampleCv : Cv :=
  { cvtColor := sampleCvtColor
    GaussianBlur := sampleGaussianBlur
    Canny := sampleCanny
    allocate := fun _ => true }

/-! ## Closed forms and concrete frames used by the proofs -/

/-- The pixel the loops store at row `y`, column `x`. -/
def edgePixel (edges : Mat) (y x : Nat) : Vec4b :=
  ⟨edges.elemAt y x, edges.elemAt y x, edges.elemAt y x, 255⟩

/-- The pixels of the finished output matrix, row after row. -/
def expandedPixels (edges : Mat) (w h : Nat) : List Vec4b :=
  (List.range (h * w)).map fun i => edgePixel edges (i / w) (i % w)

/-- The bytes `detectEdges` returns for the edge map `edges`. -/
def expandedBytes (edges : Mat) (w h : Nat) : List Byte :=
  (expandedPixels edges w h).flatMap Vec4b.bytes

/-- A 2 x 2 NV21 frame: four luma bytes, then one pair of chroma bytes. -/
def sampleFrame : JByteArray :=
  { bytes := [200, 10, 160, 0, 128, 128], elementsAvailable := true }

/-- A 65536 x 16386 NV21 frame of uniform gray: 1610809344 bytes, a legal length for a Java
array; its RGBA image has 4295491584 bytes, more than a `jsize` can express. -/
def hugeFrame : JByteArray :=
  { bytes := List.replicate 1610809344 128, elementsAvailable := true }

/-- A 3 x 2 frame of the declared NV21 length, 9 bytes. -/
def oddFrame : JByteArray :=
  { bytes := [128, 128, 128, 128, 128, 128, 128, 128, 128], elementsAvailable := true }

/-- A 1 x 1 frame of the declared NV21 length, 1 byte. -/
def tinyFrame : JByteArray :=
  { bytes := [128], elementsAvailable := true }

/-- An empty array whose element pointer is not null. -/
def emptyFrame : JByteArray :=
  { bytes := [], elementsAvailable := true }

/-- One byte where a 2 x 2 frame needs six. -/
def shortFrame : JByteArray :=
  { bytes := [7], elementsAvailable := true }

/-- Eight bytes where a 2 x 2 frame needs six. -/
def longFrame : JByteArray :=
  { bytes := [200, 10, 160, 0, 128, 128, 9, 9], elementsAvailable := true }

/-! ## The expansion loops -/

theorem foldl_set_getElem? {α : Type} (p : Nat → α) (b n : Nat) (d : List α) (i : Nat) :
    ((List.range n).foldl (fun d x => d.set (b + x) (p x)) d)[i]? =
      if b ≤ i ∧ i < b + n then (d[i]?).map (fun _ => p (i - b)) else d[i]? := by
  induction n with
  | zero =>
    have h : ¬ (b ≤ i ∧ i < b + 0) := by omega
    rw [if_neg h]
    rfl
  | succ n ih =>
    rw [List.range_succ, List.foldl_append]
    simp only [List.foldl_cons, List.foldl_nil]
    rw [List.getElem?_set, ih]
    by_cases h1 : b + n = i
    · subst h1
      have h2 : ¬ (b ≤ b + n ∧ b + n < b + n) := by omega
      have h3 : b ≤ b + n ∧ b + n < b + (n + 1) := by omega
      have h4 : ((List.range n).foldl (fun d x => d.set (b + x) (p x)) d).length = d.length := by
        clear ih h2 h3
        induction n with
        | zero => simp
        | succ m ihm => rw [List.range_succ, List.foldl_append]; simp [ihm]
      simp only [h3, h4, if_true, and_self]
      by_cases h5 : b + n < d.length
      · simp [h5, List.getElem?_eq_getElem h5]
      · have h6 : d[b + n]? = none := List.getElem?_eq_none (by omega)
        simp [h5, h6]
    · simp only [h1, if_false]
      by_cases h2 : b ≤ i ∧ i < b + n
      · have h3 : b ≤ i ∧ i < b + (n + 1) := by omega
        simp [h2, h3]
      · have h3 : ¬ (b ≤ i ∧ i < b + (n + 1)) := by omega
        simp [h2, h3]

theorem foldl_Mat4_set (edges : Mat) (y : Nat) (l : List Nat) (out : Mat4) :
    l.foldl
        (fun out x =>
          let edgeValue := edges.elemAt y x
          out.set y x ⟨edgeValue, edgeValue, edgeValue, 255⟩)
        out =
      { out with
        data := l.foldl (fun d x => d.set (y * out.cols.toNat + x) (edgePixel edges y x)) out.data } := by
  induction l generalizing out with
  | nil => rfl
  | cons a l ih =>
    simp only [List.foldl_cons]
    rw [ih]
    rfl

theorem fillRow_eq (edges : Mat) (width : Int) (y : Nat) (out : Mat4) :
    fillRow edges width y out =
      { out with
        data := (List.range width.toNat).foldl
          (fun d x => d.set (y * out.cols.toNat + x) (edgePixel edges y x)) out.data } :=
  foldl_Mat4_set edges y (List.range width.toNat) out

theorem fillRow_cols (edges : Mat) (width : Int) (y : Nat) (out : Mat4) :
    (fillRow edges width y out).cols = out.cols := by
  rw [fillRow_eq]

theorem fillRow_rows (edges : Mat) (width : Int) (y : Nat) (out : Mat4) :
    (fillRow edges width y out).rows = out.rows := by
  rw [fillRow_eq]

theorem fillRow_getElem? (edges : Mat) (width : Int) (y : Nat) (out : Mat4) (i : Nat) :
    (fillRow edges width y out).data[i]? =
      if y * out.cols.toNat ≤ i ∧ i < y * out.cols.toNat + width.toNat then
        (out.data[i]?).map (fun _ => edgePixel edges y (i - y * out.cols.toNat))
      else out.data[i]? := by
  rw [fillRow_eq]
  exact foldl_set_getElem? (edgePixel edges y) (y * out.cols.toNat) width.toNat out.data i

/-- State of the output matrix after the first `m` rows have been written. -/
theorem fillRows_spec (edges : Mat) (width : Int) (out : Mat4) (m : Nat) :
    ((List.range m).foldl (fun out y => fillRow edges width y out) out).cols = out.cols ∧
    ((List.range m).foldl (fun out y => fillRow edges width y out) out).rows = out.rows ∧
    (out.cols = width → ∀ i : Nat,
      ((List.range m).foldl (fun out y => fillRow edges width y out) out).data[i]? =
        if i < m * width.toNat then
          (out.data[i]?).map (fun _ => edgePixel edges (i / width.toNat) (i % width.toNat))
        else out.data[i]?) := by
  induction m with
  | zero =>
    refine ⟨rfl, rfl, fun _ i => ?_⟩
    have h : ¬ (i < 0 * width.toNat) := by omega
    rw [if_neg h]
    rfl
  | succ m ih =>
    obtain ⟨hc, hr, hd⟩ := ih
    rw [List.range_succ, List.foldl_append]
    simp only [List.foldl_cons, List.foldl_nil]
    refine ⟨?_, ?_, fun hw i => ?_⟩
    · rw [fillRow_cols, hc]
    · rw [fillRow_rows, hr]
    · rw [fillRow_getElem?, hc, hd hw, hw]
      have hsucc : (m + 1) * width.toNat = m * width.toNat + width.toNat := by ring
      by_cases h1 : m * width.toNat ≤ i ∧ i < m * width.toNat + width.toNat
      · have h2 : ¬ (i < m * width.toNat) := by omega
        have h3 : i < (m + 1) * width.toNat := by omega
        rw [if_pos h1, if_neg h2, if_pos h3]
        have hwpos : 0 < width.toNat := by omega
        have hk : i - m * width.toNat < width.toNat := by omega
        have hi : i = width.toNat * m + (i - m * width.toNat) := by
          rw [Nat.mul_comm]; omega
        have hdiv : i / width.toNat = m := by
          rw [hi, Nat.mul_add_div hwpos, Nat.div_eq_of_lt hk]; rfl
        have hmod : i % width.toNat = i - m * width.toNat := by
          conv_lhs => rw [hi]
          rw [Nat.mul_add_mod, Nat.mod_eq_of_lt hk]
        rw [hdiv, hmod]
      · rw [if_neg h1]
        by_cases h2 : i < m * width.toNat
        · have h3 : i < (m + 1) * width.toNat := by omega
          rw [if_pos h2, if_pos h3]
        · have h3 : ¬ (i < (m + 1) * width.toNat) := by omega
          rw [if_neg h2, if_neg h3]

theorem toNat_mul_of_nonneg (a b : Int) (ha : 0 ≤ a) (hb : 0 ≤ b) :
    (a * b).toNat = a.toNat * b.toNat := by
  obtain ⟨m, rfl⟩ := Int.eq_ofNat_of_zero_le ha
  obtain ⟨n, rfl⟩ := Int.eq_ofNat_of_zero_le hb
  rw [← Int.natCast_mul]
  rfl

theorem create_ok_iff (cv : Cv) (rows cols : Int) (out : Mat4) :
    Mat4.create cv rows cols = Except.ok out ↔
      0 ≤ rows ∧ 0 ≤ cols ∧ cv.allocate ((rows * cols).toNat * 4) = true ∧
        out = { rows := rows, cols := cols,
                data := List.replicate (rows * cols).toNat ⟨0, 0, 0, 0⟩ } := by
  unfold Mat4.create
  by_cases h : rows < 0 ∨ cols < 0
  · rw [if_pos h]
    constructor
    · intro hh; cases hh
    · rintro ⟨h1, h2, -, -⟩; omega
  · rw [if_neg h]
    have h1 : 0 ≤ rows := by omega
    have h2 : 0 ≤ cols := by omega
    cases ha : cv.allocate ((rows * cols).toNat * 4)
    · simp
    · simp only [if_true, true_and, h1, h2]
      constructor
      · intro hh; injection hh with hh; exact hh.symm
      · intro hh; rw [hh]

theorem fillOutput_create (cv : Cv) (edges : Mat) (width height : Int) (out : Mat4)
    (h : Mat4.create cv height width = Except.ok out) :
    fillOutput edges width height out =
      { rows := height, cols := width,
        data := expandedPixels edges width.toNat height.toNat } := by
  obtain ⟨hh, hw, -, rfl⟩ := (create_ok_iff cv height width out).1 h
  obtain ⟨hc, hr, hd⟩ := fillRows_spec edges width
    { rows := height, cols := width,
      data := List.replicate (height * width).toNat (⟨0, 0, 0, 0⟩ : Vec4b) } height.toNat
  have hdata : (fillOutput edges width height
      { rows := height, cols := width,
        data := List.replicate (height * width).toNat (⟨0, 0, 0, 0⟩ : Vec4b) }).data =
      expandedPixels edges width.toNat height.toNat := by
    apply List.ext_getElem?
    intro i
    have := hd rfl i
    unfold fillOutput
    rw [this]
    simp only [expandedPixels, toNat_mul_of_nonneg height width hh hw]
    by_cases hi : i < height.toNat * width.toNat
    · rw [if_pos hi, List.getElem?_replicate, if_pos hi, List.getElem?_map,
        List.getElem?_range hi]
      rfl
    · rw [if_neg hi, List.getElem?_replicate, if_neg hi]
      symm
      apply List.getElem?_eq_none
      simp only [List.length_map, List.length_range]
      omega
  have hc2 : (fillOutput edges width height
      { rows := height, cols := width,
        data := List.replicate (height * width).toNat (⟨0, 0, 0, 0⟩ : Vec4b) }).cols = width := hc
  have hr2 : (fillOutput edges width height
      { rows := height, cols := width,
        data := List.replicate (height * width).toNat (⟨0, 0, 0, 0⟩ : Vec4b) }).rows = height := hr
  cases hf : fillOutput edges width height
      { rows := height, cols := width,
        data := List.replicate (height * width).toNat (⟨0, 0, 0, 0⟩ : Vec4b) } with
  | mk r c d =>
    rw [hf] at hdata hc2 hr2
    simp only at hdata hc2 hr2
    rw [hdata, hc2, hr2]

theorem length_flatMap_bytes (l : List Vec4b) :
    (l.flatMap Vec4b.bytes).length = 4 * l.length := by
  induction l with
  | nil => rfl
  | cons v t ih =>
    rw [List.flatMap_cons, List.length_append, ih]
    simp only [Vec4b.bytes, List.length_cons, List.length_nil]
    omega

theorem length_expandedPixels (edges : Mat) (w h : Nat) :
    (expandedPixels edges w h).length = h * w := by
  simp [expandedPixels]

theorem length_expandedBytes (edges : Mat) (w h : Nat) :
    (expandedBytes edges w h).length = h * w * 4 := by
  rw [expandedBytes, length_flatMap_bytes, length_expandedPixels]
  omega

theorem serialize_expanded (cv : Cv) (edges : Mat) (width height : Int)
    (hw : 0 ≤ width) (hh : 0 ≤ height) :
    serialize cv { rows := height, cols := width,
                   data := expandedPixels edges width.toNat height.toNat } =
      if cv.allocate ((height * width).toNat * 4) then
        Except.ok (expandedBytes edges width.toNat height.toNat)
      else Except.error Fault.badAlloc := by
  unfold serialize
  simp only [Mat4.total, Mat4.channels, Mat4.bytes]
  cases cv.allocate ((height * width).toNat * 4)
  · simp
  · simp only [if_true, memcpy, List.length_replicate]
    congr 1
    have hlen : (expandedBytes edges width.toNat height.toNat).length =
        (height * width).toNat * 4 := by
      rw [length_expandedBytes, toNat_mul_of_nonneg height width hh hw]
    rw [List.drop_of_length_le (by simp), List.append_nil]
    exact List.take_of_length_le (le_of_eq hlen)

/-! ## What `detectEdges` computes -/

/-- The `try` block in closed form: the fault of the library if it raises one, a fault when
the output cannot be created, and otherwise the expanded edge map. -/
theorem detectEdgesTry_eq (cv : Cv) (imageData : List Byte) (width height : Int) :
    detectEdgesTry cv imageData width height =
      match edgeMap cv imageData width height with
      | Except.error f => Except.error f
      | Except.ok edges =>
        if height < 0 ∨ width < 0 then Except.error Fault.cvError
        else if cv.allocate ((height * width).toNat * 4) then
          Except.ok (expandedBytes edges width.toNat height.toNat)
        else Except.error Fault.badAlloc := by
  unfold detectEdgesTry
  cases he : edgeMap cv imageData width height with
  | error f => rfl
  | ok edges =>
    simp only [bind, Except.bind]
    by_cases hneg : height < 0 ∨ width < 0
    · simp only [Mat4.create, if_pos hneg]
    · have hh : 0 ≤ height := by omega
      have hw : 0 ≤ width := by omega
      cases ha : cv.allocate ((height * width).toNat * 4) with
      | false => simp [Mat4.create, hneg, ha]
      | true =>
        have hc : Mat4.create cv height width =
            Except.ok { rows := height, cols := width,
                        data := List.replicate (height * width).toNat ⟨0, 0, 0, 0⟩ } := by
          simp [Mat4.create, hneg, ha]
        rw [hc]
        simp only [fillOutput_create cv edges width height _ hc,
          serialize_expanded cv edges width height hw hh, ha, if_neg hneg, if_true]

theorem detectEdgesTry_ok_iff (cv : Cv) (imageData : List Byte) (width height : Int)
    (result : List Byte) :
    detectEdgesTry cv imageData width height = Except.ok result ↔
      ∃ edges, edgeMap cv imageData width height = Except.ok edges ∧
        0 ≤ height ∧ 0 ≤ width ∧ cv.allocate ((height * width).toNat * 4) = true ∧
        result = expandedBytes edges width.toNat height.toNat := by
  rw [detectEdgesTry_eq]
  cases he : edgeMap cv imageData width height with
  | error f =>
    constructor
    · intro h; cases h
    · rintro ⟨edges, h, -⟩; cases h
  | ok edges =>
    simp only
    by_cases hneg : height < 0 ∨ width < 0
    · rw [if_pos hneg]
      constructor
      · intro h; cases h
      · rintro ⟨-, -, h1, h2, -⟩; omega
    · rw [if_neg hneg]
      have hh : 0 ≤ height := by omega
      have hw : 0 ≤ width := by omega
      cases ha : cv.allocate ((height * width).toNat * 4) with
      | false =>
        constructor
        · intro h; cases h
        · rintro ⟨-, -, -, -, h, -⟩; cases h
      | true =>
        simp only [if_true]
        constructor
        · intro h
          injection h with h
          exact ⟨edges, rfl, hh, hw, trivial, h.symm⟩
        · rintro ⟨e, h1, -, -, -, h2⟩
          injection h1 with h1
          rw [h2, h1]

theorem detectEdges_of_ok (cv : Cv) (imageData : List Byte) (width height : Int)
    (result : List Byte) (h : detectEdgesTry cv imageData width height = Except.ok result) :
    detectEdges cv imageData width height = result := by
  unfold detectEdges
  rw [h]

theorem detectEdges_of_error (cv : Cv) (imageData : List Byte) (width height : Int)
    (f : Fault) (h : detectEdgesTry cv imageData width height = Except.error f) :
    detectEdges cv imageData width height = [] := by
  unfold detectEdges
  rw [h]

/-- Length of the pipeline result: whatever the library does, `detectEdges` returns either
the empty vector or exactly `height * width * 4` bytes. -/
theorem detectEdges_length (cv : Cv) (imageData : List Byte) (width height : Int) :
    (detectEdges cv imageData width height).length = 0 ∨
      (detectEdges cv imageData width height).length = height.toNat * width.toNat * 4 := by
  cases h : detectEdgesTry cv imageData width height with
  | error f => left; rw [detectEdges_of_error _ _ _ _ f h]; rfl
  | ok r =>
    right
    rw [detectEdges_of_ok _ _ _ _ r h]
    obtain ⟨edges, -, -, -, -, rfl⟩ := (detectEdgesTry_ok_iff _ _ _ _ _).1 h
    exact length_expandedBytes edges _ _

theorem getElem?_flatMap_bytes (l : List Vec4b) (i : Nat) (v : Vec4b) (h : l[i]? = some v) :
    (l.flatMap Vec4b.bytes)[4 * i]? = some v.v0 ∧
    (l.flatMap Vec4b.bytes)[4 * i + 1]? = some v.v1 ∧
    (l.flatMap Vec4b.bytes)[4 * i + 2]? = some v.v2 ∧
    (l.flatMap Vec4b.bytes)[4 * i + 3]? = some v.v3 := by
  induction l generalizing i with
  | nil => simp at h
  | cons a t ih =>
    cases i with
    | zero =>
      simp only [List.getElem?_cons_zero, Option.some.injEq] at h
      subst h
      simp [List.flatMap_cons, Vec4b.bytes]
    | succ j =>
      simp only [List.getElem?_cons_succ] at h
      obtain ⟨h0, h1, h2, h3⟩ := ih j h
      have e0 : 4 * (j + 1) = 4 * j + 1 + 1 + 1 + 1 := by omega
      have e1 : 4 * (j + 1) + 1 = 4 * j + 1 + 1 + 1 + 1 + 1 := by omega
      have e2 : 4 * (j + 1) + 2 = 4 * j + 2 + 1 + 1 + 1 + 1 := by omega
      have e3 : 4 * (j + 1) + 3 = 4 * j + 3 + 1 + 1 + 1 + 1 := by omega
      rw [e1, e2, e3, e0]
      simp only [List.flatMap_cons, Vec4b.bytes, List.cons_append, List.nil_append,
        List.getElem?_cons_succ]
      exact ⟨h0, h1, h2, h3⟩

theorem getElem?_expandedPixels (edges : Mat) (w h y x : Nat) (hy : y < h) (hx : x < w) :
    (expandedPixels edges w h)[y * w + x]? = some (edgePixel edges y x) := by
  have hlt : y * w + x < h * w := by
    have h1 : (y + 1) * w ≤ h * w := Nat.mul_le_mul_right w hy
    have h2 : (y + 1) * w = y * w + w := by ring
    omega
  have hdiv : (y * w + x) / w = y := by
    rw [Nat.mul_comm y w, Nat.mul_add_div (by omega), Nat.div_eq_of_lt hx]
    rfl
  have hmod : (y * w + x) % w = x := by
    rw [Nat.mul_comm y w, Nat.mul_add_mod, Nat.mod_eq_of_lt hx]
  simp only [expandedPixels]
  rw [List.getElem?_map, List.getElem?_range hlt]
  simp only [Option.map_some', hdiv, hmod]

/-- Byte layout of the expanded edge map: pixel `(x, y)` occupies the four bytes from offset
`4 * (y * w + x)` on and holds the edge value three times, then 255. -/
theorem getElem?_expandedBytes (edges : Mat) (w h y x : Nat) (hy : y < h) (hx : x < w) :
    (expandedBytes edges w h)[4 * (y * w + x)]? = some (edges.elemAt y x) ∧
    (expandedBytes edges w h)[4 * (y * w + x) + 1]? = some (edges.elemAt y x) ∧
    (expandedBytes edges w h)[4 * (y * w + x) + 2]? = some (edges.elemAt y x) ∧
    (expandedBytes edges w h)[4 * (y * w + x) + 3]? = some 255 :=
  getElem?_flatMap_bytes _ _ _ (getElem?_expandedPixels edges w h y x hy hx)

theorem mem_expandedBytes (edges : Mat) (w h : Nat) (b : Byte)
    (hb : b ∈ expandedBytes edges w h) :
    b = 255 ∨ ∃ y x, y < h ∧ x < w ∧ b = edges.elemAt y x := by
  simp only [expandedBytes, expandedPixels, List.mem_flatMap, List.mem_map, List.mem_range] at hb
  obtain ⟨v, ⟨i, hi, rfl⟩, hv⟩ := hb
  have hw : 0 < w := by
    rcases Nat.eq_zero_or_pos w with h0 | h0
    · subst h0; simp at hi
    · exact h0
  have hy : i / w < h := by
    rw [Nat.div_lt_iff_lt_mul hw]; exact hi
  have hx : i % w < w := Nat.mod_lt _ hw
  simp only [Vec4b.bytes, edgePixel, List.mem_cons, List.mem_singleton, List.mem_nil_iff,
    or_false] at hv
  rcases hv with hv | hv | hv | hv
  · exact Or.inr ⟨_, _, hy, hx, hv⟩
  · exact Or.inr ⟨_, _, hy, hx, hv⟩
  · exact Or.inr ⟨_, _, hy, hx, hv⟩
  · exact Or.inl hv

/-! ## What `processEdges` does -/

theorem wrapInt32_of_fits (z : Int) (h0 : -2147483648 ≤ z) (h1 : z ≤ 2147483647) :
    wrapInt32 z = z := by
  unfold wrapInt32
  omega

theorem toJsize_eq_iff (n : Nat) : toJsize n = (n : Int) ↔ n ≤ 2 ^ 31 - 1 := by
  unfold toJsize
  split <;> omega

theorem toJsize_of_le (n : Nat) (h : n ≤ 2 ^ 31 - 1) : toJsize n = (n : Int) :=
  (toJsize_eq_iff n).2 h

theorem toJsize_wrap (n : Nat) (h1 : 2 ^ 32 ≤ n) (h2 : n < 2 ^ 32 + 2 ^ 31) :
    toJsize n = (n : Int) - 2 ^ 32 := by
  unfold toJsize
  split <;> omega

/-- The rejecting path: a null element pointer or a non-positive dimension. -/
theorem processEdges_invalid (cv : Cv) (imageData : JByteArray) (width height : Int)
    (h : imageData.elementsAvailable = false ∨ width ≤ 0 ∨ height ≤ 0) :
    processEdges cv imageData width height =
      { output := JOutput.null,
        events := [Event.getByteArrayElements, Event.getArrayLength imageData.bytes.length,
          Event.logE "Invalid parameters", Event.releaseByteArrayElements] } := by
  have hc : GetByteArrayElements imageData = none ∨ width ≤ 0 ∨ height ≤ 0 := by
    rcases h with h | h | h
    · left; simp [GetByteArrayElements, h]
    · right; left; exact h
    · right; right; exact h
  simp only [processEdges, if_pos hc, GetArrayLength]
  rfl

/-- The processing path: non-null elements and positive dimensions. -/
theorem processEdges_valid (cv : Cv) (imageData : JByteArray) (width height : Int)
    (ha : imageData.elementsAvailable = true) (hw : 0 < width) (hh : 0 < height) :
    processEdges cv imageData width height =
      if toJsize (detectEdges cv imageData.bytes width height).length < 0 then
        { output := JOutput.jniError,
          events := [Event.getByteArrayElements, Event.getArrayLength imageData.bytes.length,
            Event.detectEdges,
            Event.newByteArray (toJsize (detectEdges cv imageData.bytes width height).length)] }
      else
        { output := JOutput.array ((detectEdges cv imageData.bytes width height).take
            (toJsize (detectEdges cv imageData.bytes width height).length).toNat),
          events := [Event.getByteArrayElements, Event.getArrayLength imageData.bytes.length,
            Event.detectEdges,
            Event.newByteArray (toJsize (detectEdges cv imageData.bytes width height).length),
            Event.setByteArrayRegion 0
              (toJsize (detectEdges cv imageData.bytes width height).length),
            Event.releaseByteArrayElements] } := by
  have hg : GetByteArrayElements imageData = some imageData.bytes := by
    simp [GetByteArrayElements, ha]
  have hc : ¬ (some imageData.bytes = none ∨ width ≤ 0 ∨ height ≤ 0) := by
    simp only [reduceCtorEq, false_or]
    omega
  simp only [processEdges, hg, if_neg hc, Option.getD_some, GetArrayLength, NewByteArray]
  by_cases hn : toJsize (detectEdges cv imageData.bytes width height).length < 0
  · simp only [if_pos hn]
    rfl
  · simp only [if_neg hn, SetByteArrayRegion, Int.toNat_zero, List.take_zero, List.nil_append,
      Nat.zero_add]
    rw [List.drop_of_length_le (by simp), List.append_nil]
    rfl

/-- On the processing path, a result that fits a `jsize` is handed over unchanged. -/
theorem processEdges_output_of_fits (cv : Cv) (imageData : JByteArray) (width height : Int)
    (ha : imageData.elementsAvailable = true) (hw : 0 < width) (hh : 0 < height)
    (hfit : (detectEdges cv imageData.bytes width height).length ≤ 2 ^ 31 - 1) :
    (processEdges cv imageData width height).output =
      JOutput.array (detectEdges cv imageData.bytes width height) := by
  rw [processEdges_valid cv imageData width height ha hw hh, toJsize_of_le _ hfit]
  have hn : ¬ (((detectEdges cv imageData.bytes width height).length : Int) < 0) := by omega
  rw [if_neg hn]
  simp only [Int.toNat_ofNat, List.take_length]

theorem sampleCv_edgeMap_ok (imageData : List Byte) (width height : Int)
    (hw : width % 2 = 0) (hh : wrapInt32 (height + height.tdiv 2) % 3 = 0) :
    ∃ edges, edgeMap sampleCv imageData width height = Except.ok edges := by
  have hc : (inputMat imageData width height).cols % 2 = 0 ∧
      (inputMat imageData width height).rows % 3 = 0 := ⟨hw, hh⟩
  simp only [edgeMap, sampleCv, sampleCvtColor, if_pos hc, sampleGaussianBlur, sampleCanny,
    bind, Except.bind]
  exact ⟨_, rfl⟩

theorem sampleCv_detectEdges_length (imageData : List Byte) (width height : Int)
    (hw : width % 2 = 0) (hh : wrapInt32 (height + height.tdiv 2) % 3 = 0)
    (hw0 : 0 ≤ width) (hh0 : 0 ≤ height) :
    (detectEdges sampleCv imageData width height).length = height.toNat * width.toNat * 4 := by
  obtain ⟨edges, he⟩ := sampleCv_edgeMap_ok imageData width height hw hh
  have hrun : detectEdgesTry sampleCv imageData width height =
      Except.ok (expandedBytes edges width.toNat height.toNat) :=
    (detectEdgesTry_ok_iff _ _ _ _ _).2 ⟨edges, he, hh0, hw0, rfl, rfl⟩
  rw [detectEdges_of_ok _ _ _ _ _ hrun, length_expandedBytes]

theorem hugeFrame_detectEdges_length :
    (detectEdges sampleCv hugeFrame.bytes 65536 16386).length = 4295491584 := by
  rw [sampleCv_detectEdges_length _ _ _ (by decide) (by decide) (by decide) (by decide)]
  rfl

/-! ## Properties of the boundary and of the pipeline -/

/-- C1, evaluated on the path it names: for the 3 x 2 frame `oddFrame`, whose length is
`3 * 2 * 3 / 2`, the colour conversion raises, `detectEdges` reports failure by the empty
vector, and `processEdges` hands back a present array of length 0, which is not
`3 * 2 * 4`. -/
theorem processEdges_failed_pipeline_output :
    (oddFrame.bytes.length : Int) = 3 * 2 * 3 / 2 ∧
    detectEdges sampleCv oddFrame.bytes 3 2 = [] ∧
    (processEdges sampleCv oddFrame 3 2).output = JOutput.array [] ∧
    ([] : List Byte).length ≠ 3 * 2 * 4 := by
  refine ⟨by decide, by rfl, by rfl, by decide⟩

/-- C2: when `width <= 0` or `height <= 0`, `processEdges` returns null for every buffer and
every library, it logs and releases, and `detectEdges` is not among the calls it makes. -/
theorem processEdges_rejects_nonpositive (cv : Cv) (imageData : JByteArray)
    (width height : Int) (h : width ≤ 0 ∨ height ≤ 0) :
    (processEdges cv imageData width height).output = JOutput.null ∧
    (processEdges cv imageData width height).events =
      [Event.getByteArrayElements, Event.getArrayLength imageData.bytes.length,
        Event.logE "Invalid parameters", Event.releaseByteArrayElements] ∧
    Event.detectEdges ∉ (processEdges cv imageData width height).events := by
  rw [processEdges_invalid cv imageData width height (Or.inr h)]
  refine ⟨rfl, rfl, ?_⟩
  simp

theorem processEdges_rejects_nonpositive_witness :
    ((0 : Int) ≤ 0 ∨ (2 : Int) ≤ 0) ∧
    (processEdges sampleCv sampleFrame 0 2).output = JOutput.null ∧
    (processEdges sampleCv sampleFrame 0 2).events =
      [Event.getByteArrayElements, Event.getArrayLength sampleFrame.bytes.length,
        Event.logE "Invalid parameters", Event.releaseByteArrayElements] ∧
    Event.detectEdges ∉ (processEdges sampleCv sampleFrame 0 2).events :=
  ⟨by decide, processEdges_rejects_nonpositive sampleCv sampleFrame 0 2 (by decide)⟩

/-- C3, evaluated at an empty buffer: with a non-null element pointer, `width = 2` and
`height = 2`, `processEdges` does not return null for any library; it calls `detectEdges`
on the empty storage. -/
theorem processEdges_empty_buffer_not_rejected (cv : Cv) :
    emptyFrame.bytes.length = 0 ∧
    (processEdges cv emptyFrame 2 2).output ≠ JOutput.null ∧
    Event.detectEdges ∈ (processEdges cv emptyFrame 2 2).events := by
  rw [processEdges_valid cv emptyFrame 2 2 rfl (by decide) (by decide)]
  refine ⟨rfl, ?_, ?_⟩
  · split <;> simp
  · split <;> simp

/-- C4, evaluated at two buffers whose length is not `2 * 2 * 3 / 2 = 6`: for the one-byte
`shortFrame`, `processEdges` does not return null for any library and calls `detectEdges`;
for the eight-byte `longFrame` it returns a present array of 16 bytes. -/
theorem processEdges_length_mismatch_not_rejected (cv : Cv) :
    (shortFrame.bytes.length : Int) ≠ 2 * 2 * 3 / 2 ∧
    (processEdges cv shortFrame 2 2).output ≠ JOutput.null ∧
    Event.detectEdges ∈ (processEdges cv shortFrame 2 2).events ∧
    (longFrame.bytes.length : Int) ≠ 2 * 2 * 3 / 2 ∧
    (processEdges sampleCv longFrame 2 2).output =
      JOutput.array [255, 255, 255, 255, 0, 0, 0, 255, 255, 255, 255, 255, 0, 0, 0, 255] := by
  rw [processEdges_valid cv shortFrame 2 2 rfl (by decide) (by decide)]
  refine ⟨by decide, ?_, ?_, by decide, by rfl⟩
  · split <;> simp
  · split <;> simp

/-- C5, what the code does when a step of the pipeline raises: for a non-null buffer and
positive dimensions, `detectEdges` returns the empty vector, and `processEdges` returns a
present array of length 0, not null. -/
theorem processEdges_fault_output (cv : Cv) (imageData : JByteArray) (width height : Int)
    (f : Fault) (ha : imageData.elementsAvailable = true) (hw : 0 < width) (hh : 0 < height)
    (hfault : detectEdgesTry cv imageData.bytes width height = Except.error f) :
    detectEdges cv imageData.bytes width height = [] ∧
    (processEdges cv imageData width height).output = JOutput.array [] ∧
    (processEdges cv imageData width height).output ≠ JOutput.null := by
  have hd := detectEdges_of_error cv imageData.bytes width height f hfault
  have ho : (processEdges cv imageData width height).output = JOutput.array [] := by
    rw [processEdges_output_of_fits cv imageData width height ha hw hh (by rw [hd]; simp), hd]
  refine ⟨hd, ho, ?_⟩
  rw [ho]
  simp

theorem processEdges_fault_output_witness :
    tinyFrame.elementsAvailable = true ∧ (0 : Int) < 1 ∧
    detectEdgesTry sampleCv tinyFrame.bytes 1 1 = Except.error Fault.cvError ∧
    detectEdges sampleCv tinyFrame.bytes 1 1 = [] ∧
    (processEdges sampleCv tinyFrame 1 1).output = JOutput.array [] ∧
    (processEdges sampleCv tinyFrame 1 1).output ≠ JOutput.null :=
  ⟨rfl, by decide, by rfl,
    processEdges_fault_output sampleCv tinyFrame 1 1 Fault.cvError rfl (by decide) (by decide)
      (by rfl)⟩

/-- C6: in a successful run of `detectEdges` with positive dimensions, the result has
`height * width * 4` bytes; for every pixel `(x, y)` of the image the bytes at offsets
`4 * (y * width + x) + 0, + 1, + 2` are the edge-map value at row `y`, column `x`, and the
byte at offset `+ 3` is 255; hence for every pixel index `k` the red, green and blue bytes
agree and the alpha byte is 255. -/
theorem detectEdges_rgba_layout (cv : Cv) (imageData : List Byte) (width height : Int)
    (edges : Mat) (result : List Byte) (hw : 0 < width) (hh : 0 < height)
    (hedges : edgeMap cv imageData width height = Except.ok edges)
    (hrun : detectEdgesTry cv imageData width height = Except.ok result) :
    detectEdges cv imageData width height = result ∧
    result.length = height.toNat * width.toNat * 4 ∧
    (∀ x y : Nat, (x : Int) < width → (y : Int) < height →
      result[4 * (y * width.toNat + x) + 0]? = some (edges.elemAt y x) ∧
      result[4 * (y * width.toNat + x) + 1]? = some (edges.elemAt y x) ∧
      result[4 * (y * width.toNat + x) + 2]? = some (edges.elemAt y x) ∧
      result[4 * (y * width.toNat + x) + 3]? = some 255) ∧
    (∀ k : Nat, k < height.toNat * width.toNat →
      result[4 * k]? = result[4 * k + 1]? ∧ result[4 * k + 1]? = result[4 * k + 2]? ∧
      result[4 * k + 3]? = some 255) := by
  obtain ⟨e, he, -, -, -, hres⟩ := (detectEdgesTry_ok_iff _ _ _ _ _).1 hrun
  rw [hedges] at he
  injection he with he
  subst he
  subst hres
  have hpix : ∀ x y : Nat, (x : Int) < width → (y : Int) < height →
      (expandedBytes edges width.toNat height.toNat)[4 * (y * width.toNat + x) + 0]? =
        some (edges.elemAt y x) ∧
      (expandedBytes edges width.toNat height.toNat)[4 * (y * width.toNat + x) + 1]? =
        some (edges.elemAt y x) ∧
      (expandedBytes edges width.toNat height.toNat)[4 * (y * width.toNat + x) + 2]? =
        some (edges.elemAt y x) ∧
      (expandedBytes edges width.toNat height.toNat)[4 * (y * width.toNat + x) + 3]? =
        some 255 := by
    intro x y hx hy
    exact getElem?_expandedBytes edges width.toNat height.toNat y x (by omega) (by omega)
  refine ⟨detectEdges_of_ok _ _ _ _ _ hrun, length_expandedBytes edges _ _, hpix, ?_⟩
  intro k hk
  have hwpos : 0 < width.toNat := by omega
  have hy : k / width.toNat < height.toNat := by
    rw [Nat.div_lt_iff_lt_mul hwpos]; exact hk
  have hx : k % width.toNat < width.toNat := Nat.mod_lt _ hwpos
  have hkk : k / width.toNat * width.toNat + k % width.toNat = k := Nat.div_add_mod' k _
  obtain ⟨h0, h1, h2, h3⟩ := hpix (k % width.toNat) (k / width.toNat) (by omega) (by omega)
  rw [hkk] at h0 h1 h2 h3
  rw [Nat.add_zero] at h0
  rw [h0, h1, h2, h3]
  exact ⟨rfl, rfl, rfl⟩

theorem detectEdges_rgba_layout_witness :
    (0 : Int) < 2 ∧
    edgeMap sampleCv sampleFrame.bytes 2 2 =
      Except.ok { rows := 2, cols := 2, data := [255, 0, 255, 0] } ∧
    detectEdgesTry sampleCv sampleFrame.bytes 2 2 =
      Except.ok [255, 255, 255, 255, 0, 0, 0, 255, 255, 255, 255, 255, 0, 0, 0, 255] ∧
    detectEdges sampleCv sampleFrame.bytes 2 2 =
      [255, 255, 255, 255, 0, 0, 0, 255, 255, 255, 255, 255, 0, 0, 0, 255] ∧
    ([255, 255, 255, 255, 0, 0, 0, 255, 255, 255, 255, 255, 0, 0, 0, 255] : List Byte)[
        4 * (1 * (2 : Int).toNat + 0) + 3]? = some 255 :=
  ⟨by decide, by rfl, by rfl,
    (detectEdges_rgba_layout sampleCv sampleFrame.bytes 2 2
      { rows := 2, cols := 2, data := [255, 0, 255, 0] }
      [255, 255, 255, 255, 0, 0, 0, 255, 255, 255, 255, 255, 0, 0, 0, 255]
      (by decide) (by decide) (by rfl) (by rfl)).1,
    ((detectEdges_rgba_layout sampleCv sampleFrame.bytes 2 2
      { rows := 2, cols := 2, data := [255, 0, 255, 0] }
      [255, 255, 255, 255, 0, 0, 0, 255, 255, 255, 255, 255, 0, 0, 0, 255]
      (by decide) (by decide) (by rfl) (by rfl)).2.2.1 0 1 (by decide) (by decide)).2.2.2⟩

/-- C7: in a successful run of `detectEdges` whose Canny step returned a `width x height`
edge map with every entry 0 or 255, every byte of the result is 0 or 255. -/
theorem detectEdges_binary (cv : Cv) (imageData : List Byte) (width height : Int)
    (edges : Mat) (result : List Byte)
    (hedges : edgeMap cv imageData width height = Except.ok edges)
    (hrun : detectEdgesTry cv imageData width height = Except.ok result)
    (hshape : edges.rows = height ∧ edges.cols = width ∧
      edges.data.length = height.toNat * width.toNat)
    (hbin : ∀ b ∈ edges.data, b = 0 ∨ b = 255) :
    detectEdges cv imageData width height = result ∧ ∀ b ∈ result, b = 0 ∨ b = 255 := by
  obtain ⟨e, he, -, -, -, hres⟩ := (detectEdgesTry_ok_iff _ _ _ _ _).1 hrun
  rw [hedges] at he
  injection he with he
  subst he
  subst hres
  refine ⟨detectEdges_of_ok _ _ _ _ _ hrun, ?_⟩
  intro b hb
  rcases mem_expandedBytes edges _ _ b hb with h255 | ⟨y, x, hy, hx, hyx⟩
  · exact Or.inr h255
  · obtain ⟨-, hcols, hlen⟩ := hshape
    have hlt : y * width.toNat + x < edges.data.length := by
      rw [hlen]
      have h1 : (y + 1) * width.toNat ≤ height.toNat * width.toNat :=
        Nat.mul_le_mul_right _ hy
      have h2 : (y + 1) * width.toNat = y * width.toNat + width.toNat := by ring
      omega
    apply hbin
    rw [hyx, Mat.elemAt, hcols, List.getD_eq_getElem _ _ hlt]
    exact List.getElem_mem hlt

theorem detectEdges_binary_witness :
    edgeMap sampleCv sampleFrame.bytes 2 2 =
      Except.ok { rows := 2, cols := 2, data := [255, 0, 255, 0] } ∧
    (∀ b ∈ ([255, 0, 255, 0] : List Byte), b = 0 ∨ b = 255) ∧
    detectEdges sampleCv sampleFrame.bytes 2 2 =
      [255, 255, 255, 255, 0, 0, 0, 255, 255, 255, 255, 255, 0, 0, 0, 255] ∧
    (∀ b ∈ ([255, 255, 255, 255, 0, 0, 0, 255, 255, 255, 255, 255, 0, 0, 0, 255] : List Byte),
      b = 0 ∨ b = 255) :=
  ⟨by rfl, by simp,
    detectEdges_binary sampleCv sampleFrame.bytes 2 2
      { rows := 2, cols := 2, data := [255, 0, 255, 0] }
      [255, 255, 255, 255, 0, 0, 0, 255, 255, 255, 255, 255, 0, 0, 0, 255]
      (by rfl) (by rfl) ⟨rfl, rfl, rfl⟩ (by simp)⟩

/-- C8 as amended: for a non-null buffer and positive dimensions, when the pipeline result
has at most `2^31 - 1` bytes, every present output of `processEdges` is byte for byte
`detectEdges` of the same buffer, width and height: the same length and the same byte at
every index. -/
theorem processEdges_passes_result_through (cv : Cv) (imageData : JByteArray)
    (width height : Int) (out : List Byte) (ha : imageData.elementsAvailable = true)
    (hw : 0 < width) (hh : 0 < height)
    (hfit : (detectEdges cv imageData.bytes width height).length ≤ 2 ^ 31 - 1)
    (hout : (processEdges cv imageData width height).output = JOutput.array out) :
    out = detectEdges cv imageData.bytes width height ∧
    out.length = (detectEdges cv imageData.bytes width height).length ∧
    ∀ i : Nat, out[i]? = (detectEdges cv imageData.bytes width height)[i]? := by
  rw [processEdges_output_of_fits cv imageData width height ha hw hh hfit] at hout
  injection hout with hout
  subst hout
  exact ⟨rfl, rfl, fun _ => rfl⟩

theorem processEdges_passes_result_through_witness :
    sampleFrame.elementsAvailable = true ∧ (0 : Int) < 2 ∧
    (detectEdges sampleCv sampleFrame.bytes 2 2).length ≤ 2 ^ 31 - 1 ∧
    (processEdges sampleCv sampleFrame 2 2).output =
      JOutput.array [255, 255, 255, 255, 0, 0, 0, 255, 255, 255, 255, 255, 0, 0, 0, 255] ∧
    ([255, 255, 255, 255, 0, 0, 0, 255, 255, 255, 255, 255, 0, 0, 0, 255] : List Byte) =
      detectEdges sampleCv sampleFrame.bytes 2 2 :=
  ⟨rfl, by decide, by decide, by rfl,
    (processEdges_passes_result_through sampleCv sampleFrame 2 2
      [255, 255, 255, 255, 0, 0, 0, 255, 255, 255, 255, 255, 0, 0, 0, 255]
      rfl (by decide) (by decide) (by decide) (by rfl)).1⟩

/-- C8 as stated fails for a result too long for a `jsize`: for the 65536 x 16386 frame
`hugeFrame` (non-null, positive dimensions) the pipeline returns 4295491584 bytes, and
`processEdges` returns a present array holding only the first 524288 of them. -/
theorem processEdges_truncates_huge_result :
    hugeFrame.elementsAvailable = true ∧ (0 : Int) < 65536 ∧ (0 : Int) < 16386 ∧
    (hugeFrame.bytes.length : Int) = 65536 * 16386 * 3 / 2 ∧
    (detectEdges sampleCv hugeFrame.bytes 65536 16386).length = 4295491584 ∧
    ∃ out, (processEdges sampleCv hugeFrame 65536 16386).output = JOutput.array out ∧
      out.length = 524288 ∧
      out ≠ detectEdges sampleCv hugeFrame.bytes 65536 16386 := by
  have hlen := hugeFrame_detectEdges_length
  have hj : toJsize (detectEdges sampleCv hugeFrame.bytes 65536 16386).length = 524288 := by
    rw [hlen, toJsize_wrap _ (by decide) (by decide)]
    rfl
  have hv := processEdges_valid sampleCv hugeFrame 65536 16386 rfl (by decide) (by decide)
  have ht : Int.toNat 524288 = 524288 := rfl
  rw [hj, if_neg (by decide), ht] at hv
  have htake : (List.take 524288 (detectEdges sampleCv hugeFrame.bytes 65536 16386)).length =
      524288 := by
    rw [List.length_take, hlen]
    rfl
  have hbuf : (hugeFrame.bytes.length : Int) = 65536 * 16386 * 3 / 2 := by
    rw [show hugeFrame.bytes.length = 1610809344 from List.length_replicate _ _]
    decide
  refine ⟨rfl, by decide, by decide, hbuf, hlen, _, congrArg Run.output hv, htake, ?_⟩
  intro heq
  have h2 := congrArg List.length heq
  rw [htake, hlen] at h2
  exact absurd h2 (by decide)

/-- C9 as amended: for positive dimensions whose row count `height + height / 2` fits a
32-bit `int`, the header `detectEdges` lays over the input covers
`width * (height + height / 2)` bytes; that is at most `width * height * 3 / 2`, and equal
to it when `height` is even; so in a buffer of length `width * height * 3 / 2` every element
`(r, c)` of the header, at offset `r * width + c`, lies inside the buffer. -/
theorem inputMat_within_buffer (buffer : List Byte) (width height : Int)
    (hw : 0 < width) (hh : 0 < height) (hfit : height + height / 2 ≤ 2 ^ 31 - 1) :
    (inputMat buffer width height).total = width * (height + height / 2) ∧
    (inputMat buffer width height).total ≤ width * height * 3 / 2 ∧
    (height % 2 = 0 → (inputMat buffer width height).total = width * height * 3 / 2) ∧
    ((buffer.length : Int) = width * height * 3 / 2 →
      ∀ r c : Nat, (r : Int) < (inputMat buffer width height).rows →
        (c : Int) < (inputMat buffer width height).cols →
        (r : Int) * (inputMat buffer width height).cols + c < buffer.length) := by
  have htd : height.tdiv 2 = height / 2 := Int.tdiv_eq_ediv (le_of_lt hh) (by decide)
  have hrows : (inputMat buffer width height).rows = height + height / 2 := by
    simp only [inputMat, htd]
    exact wrapInt32_of_fits _ (by omega) (by omega)
  have hcols : (inputMat buffer width height).cols = width := rfl
  have htotal : (inputMat buffer width height).total = width * (height + height / 2) := by
    rw [Mat.total, hrows, hcols]
    ring
  have hq0 : 0 ≤ height - 2 * (height / 2) := by omega
  have hle : width * (height + height / 2) ≤ width * height * 3 / 2 := by
    apply Int.le_ediv_of_mul_le (by decide)
    nlinarith [mul_nonneg (le_of_lt hw) hq0]
  refine ⟨htotal, htotal ▸ hle, ?_, ?_⟩
  · intro heven
    rw [htotal]
    have h2 : height = 2 * (height / 2) := by omega
    have h3 : width * height * 3 = width * (height + height / 2) * 2 := by
      nlinarith
    rw [h3, Int.mul_ediv_cancel _ (by decide)]
  · intro hbuf r c hr hc
    rw [hrows] at hr
    rw [hcols] at hc ⊢
    rw [hbuf]
    have h1 : (r : Int) + 1 ≤ height + height / 2 := by omega
    have h2 : ((r : Int) + 1) * width ≤ (height + height / 2) * width :=
      mul_le_mul_of_nonneg_right h1 (le_of_lt hw)
    have h3 : (r : Int) * width + c < width * (height + height / 2) := by nlinarith
    omega

theorem inputMat_within_buffer_witness :
    (0 : Int) < 2 ∧ (0 : Int) < 3 ∧ (3 : Int) + 3 / 2 ≤ 2 ^ 31 - 1 ∧
    (inputMat oddFrame.bytes 3 3).total = 3 * (3 + 3 / 2) ∧
    (inputMat oddFrame.bytes 3 3).total ≤ 3 * 3 * 3 / 2 ∧
    (inputMat sampleFrame.bytes 2 2).total = 2 * 2 * 3 / 2 ∧
    ((2 : Nat) : Int) * (inputMat sampleFrame.bytes 2 2).cols + (1 : Nat) <
      sampleFrame.bytes.length :=
  ⟨by decide, by decide, by decide,
    (inputMat_within_buffer oddFrame.bytes 3 3 (by decide) (by decide) (by decide)).1,
    (inputMat_within_buffer oddFrame.bytes 3 3 (by decide) (by decide) (by decide)).2.1,
    (inputMat_within_buffer sampleFrame.bytes 2 2 (by decide) (by decide) (by decide)).2.2.1
      (by decide),
    (inputMat_within_buffer sampleFrame.bytes 2 2 (by decide) (by decide) (by decide)).2.2.2
      (by decide) 2 1 (by decide) (by decide)⟩

/-- C9 as stated fails where the `int` row count overflows: for `width = 2` and the even
`height = 1431655766`, both positive, `height + height / 2 = 2147483649` exceeds `2^31 - 1`;
the header gets `-2147483647` rows, so what it covers is neither
`width * (height + height / 2)` nor `width * height * 3 / 2`. -/
theorem inputMat_rows_overflow :
    (0 : Int) < 2 ∧ (0 : Int) < 1431655766 ∧ (1431655766 : Int) % 2 = 0 ∧
    (1431655766 : Int) + 1431655766 / 2 = 2147483649 ∧
    (inputMat emptyFrame.bytes 2 1431655766).rows = -2147483647 ∧
    (inputMat emptyFrame.bytes 2 1431655766).total ≠ 2 * (1431655766 + 1431655766 / 2) ∧
    (inputMat emptyFrame.bytes 2 1431655766).total ≠ 2 * 1431655766 * 3 / 2 := by
  refine ⟨by decide, by decide, by decide, by decide, by rfl, ?_, ?_⟩
  · have h : (inputMat emptyFrame.bytes 2 1431655766).total = -4294967294 := by rfl
    rw [h]
    decide
  · have h : (inputMat emptyFrame.bytes 2 1431655766).total = -4294967294 := by rfl
    rw [h]
    decide

/-- C10: when `detectEdges` succeeds for a non-null buffer and positive dimensions, its
result has `width * height * 4` bytes, the length `processEdges` passes to `NewByteArray` is
that size converted to `jsize`, and this length equals `width * height * 4` if and only if
`width * height * 4 <= 2^31 - 1`. -/
theorem processEdges_requested_length (cv : Cv) (imageData : JByteArray)
    (width height : Int) (result : List Byte) (ha : imageData.elementsAvailable = true)
    (hw : 0 < width) (hh : 0 < height)
    (hrun : detectEdgesTry cv imageData.bytes width height = Except.ok result) :
    (result.length : Int) = width * height * 4 ∧
    Event.newByteArray (toJsize result.length) ∈
      (processEdges cv imageData width height).events ∧
    (∀ len, Event.newByteArray len ∈ (processEdges cv imageData width height).events →
      len = toJsize result.length ∧
      (len = width * height * 4 ↔ width * height * 4 ≤ 2 ^ 31 - 1)) := by
  have hd := detectEdges_of_ok cv imageData.bytes width height result hrun
  obtain ⟨edges, -, -, -, -, hres⟩ := (detectEdgesTry_ok_iff _ _ _ _ _).1 hrun
  have hlen : (result.length : Int) = width * height * 4 := by
    rw [hres, length_expandedBytes]
    push_cast
    rw [Int.toNat_of_nonneg (le_of_lt hw), Int.toNat_of_nonneg (le_of_lt hh)]
    ring
  have hiff : toJsize result.length = width * height * 4 ↔ width * height * 4 ≤ 2 ^ 31 - 1 := by
    rw [← hlen, toJsize_eq_iff]
    omega
  have hv := processEdges_valid cv imageData width height ha hw hh
  rw [hd] at hv
  refine ⟨hlen, ?_, ?_⟩
  · rw [hv]
    split <;> simp
  · intro len hmem
    have hl : len = toJsize result.length := by
      rw [hv] at hmem
      split at hmem <;> simpa using hmem
    exact ⟨hl, hl ▸ hiff⟩

theorem processEdges_requested_length_witness :
    sampleFrame.elementsAvailable = true ∧ (0 : Int) < 2 ∧
    detectEdgesTry sampleCv sampleFrame.bytes 2 2 =
      Except.ok [255, 255, 255, 255, 0, 0, 0, 255, 255, 255, 255, 255, 0, 0, 0, 255] ∧
    Event.newByteArray 16 ∈ (processEdges sampleCv sampleFrame 2 2).events ∧
    ((16 : Int) = 2 * 2 * 4 ↔ (2 : Int) * 2 * 4 ≤ 2 ^ 31 - 1) :=
  ⟨rfl, by decide, by rfl, by decide,
    ((processEdges_requested_length sampleCv sampleFrame 2 2
      [255, 255, 255, 255, 0, 0, 0, 255, 255, 255, 255, 255, 0, 0, 0, 255]
      rfl (by decide) (by decide) (by rfl)).2.2 16 (by decide)).2⟩

/-- No rejection after the guard: with a non-null element pointer and positive dimensions,
`processEdges` calls `detectEdges` and never returns null, whatever the buffer holds and
whatever the library does. -/
theorem processEdges_processing_path_not_null (cv : Cv) (imageData : JByteArray)
    (width height : Int) (ha : imageData.elementsAvailable = true)
    (hw : 0 < width) (hh : 0 < height) :
    (processEdges cv imageData width height).output ≠ JOutput.null ∧
    Event.detectEdges ∈ (processEdges cv imageData width height).events := by
  rw [processEdges_valid cv imageData width height ha hw hh]
  constructor
  · split <;> simp
  · split <;> simp

theorem processEdges_processing_path_not_null_witness :
    longFrame.elementsAvailable = true ∧ (0 : Int) < 2 ∧
    (processEdges sampleCv longFrame 2 2).output ≠ JOutput.null ∧
    Event.detectEdges ∈ (processEdges sampleCv longFrame 2 2).events :=
  ⟨rfl, by decide,
    processEdges_processing_path_not_null sampleCv longFrame 2 2 rfl (by decide) (by decide)⟩

end EdgeDetector
